import Mathlib

/-!
Verification of the sushi language front end (`src/sushi/sushi.cpp`):
a shallow embedding of its lexer (`gettok`), precedence table
(`BinopPrecedence`, `GetTokPrecedence`) and recursive-descent /
precedence-climbing parser (`Parser`), together with theorems about the
properties the specification states.

Modelling conventions:
* the C character stream (stdin via `getchar`) is a `List Char`; the
  static one-character pushback buffer `LastChar` is an `Option Char`
  (`none` = EOF);
* C `double` values produced by `strtod` are modelled as exact rationals
  (`strtodQ`), faithful to `strtod`'s parse of `[0-9.]*` strings;
* the global `CurTok` cursor is the head of a `List Tok` of the remaining
  tokens (`curTok`/`advance`); an empty list means the lexer keeps
  returning EOF;
* the mutually recursive parser functions are written fuel-indexed
  (suffix `F`) so that they are structurally recursive and computable;
  wrappers without the suffix supply ample fuel.  Running out of fuel
  returns the failure sentinel, which never happens for the supplied
  fuel on the inputs considered;
* `nullptr` results (`LogError`) are `none`; every parse function returns
  the token stream it left behind, mirroring the mutated `CurTok`.
-/

namespace Sushi

/-! ### C character classification (ASCII / C locale), as used by `gettok` -/

def isspace (c : Char) : Bool := c.toNat = 32 || (9 ≤ c.toNat && c.toNat ≤ 13)

def isdigit (c : Char) : Bool := 48 ≤ c.toNat && c.toNat ≤ 57

def isalpha (c : Char) : Bool :=
  (65 ≤ c.toNat && c.toNat ≤ 90) || (97 ≤ c.toNat && c.toNat ≤ 122)

def isalnum (c : Char) : Bool := isalpha c || isdigit c

/-! ### `strtod`, restricted to the `[0-9.]*` strings the lexer feeds it.
`strtod` reads an integer part, then at most one '.', then a fraction
part, and stops at the first character it cannot use (so `"1.2.3"`
converts to `1.2`).  The value is modelled exactly, as a rational. -/

def digitVal (c : Char) : ℚ := ((c.toNat - 48 : ℕ) : ℚ)

def intPartVal (l : List Char) : ℚ := l.foldl (fun acc c => 10 * acc + digitVal c) 0

def fracPartVal (l : List Char) : ℚ := l.foldr (fun c acc => (digitVal c + acc) / 10) 0

def strtodQ (s : String) : ℚ :=
  let ds := s.data.takeWhile isdigit
  match s.data.dropWhile isdigit with
  | '.' :: rest => intPartVal ds + fracPartVal (rest.takeWhile isdigit)
  | _ => intPartVal ds

/-! ### Tokens.  The C++ lexer returns an `int` that is either a negative
sentinel (`Token` enum) or a raw character; the satellite globals
`IdentifierStr` / `NumVal` are carried inside the token.  A number token
carries the scanned text `NumStr`; `NumVal` is `strtodQ` of it. -/

inductive Tok where
  | eofToken
  | defToken
  | externToken
  | identifierToken (s : String)
  | numberToken (numStr : String)
  | charToken (c : Char)
deriving DecidableEq

/-! ### The lexer `gettok`, split into its four scanning loops. -/

/-- Loop `while (isspace(LastChar)) LastChar = getchar();`. -/
def skipSpaces : Option Char → List Char → Option Char × List Char
  | none, input => (none, input)
  | some c, input =>
    if isspace c then
      match input with
      | [] => (none, [])
      | d :: rest => skipSpaces (some d) rest
    else (some c, input)

/-- Loop `while (isalnum((LastChar = getchar()))) IdentifierStr += LastChar;`. -/
def readIdent (acc : String) : List Char → String × Option Char × List Char
  | [] => (acc, none, [])
  | c :: rest =>
    if isalnum c then readIdent (acc.push c) rest else (acc, some c, rest)

/-- Loop `do { NumStr += LastChar; LastChar = getchar(); } while (isdigit(LastChar) || LastChar == '.');`. -/
def readNum (acc : String) (lc : Char) : List Char → String × Option Char × List Char
  | [] => (acc.push lc, none, [])
  | d :: rest =>
    if isdigit d || d = '.' then readNum (acc.push lc) d rest
    else (acc.push lc, some d, rest)

/-- Loop `do LastChar = getchar(); while (LastChar != EOF && LastChar != '\n' && LastChar != '\r');`. -/
def skipComment : List Char → Option Char × List Char
  | [] => (none, [])
  | c :: rest =>
    if c ≠ '\n' && c ≠ '\r' then skipComment rest else (some c, rest)

/-- Body of `gettok`, fuel-indexed because of the self-call after a
comment (which always consumes at least one input character, so
`input.length + 1` fuel is ample). -/
def gettokF : Nat → Option Char → List Char → Tok × Option Char × List Char
  | 0, lc, input => (.eofToken, lc, input)
  | fuel+1, lc, input =>
    match skipSpaces lc input with
    | (none, rest) => (.eofToken, none, rest)
    | (some c, rest) =>
      if isalpha c then
        match readIdent (String.mk [c]) rest with
        | (s, lc', rest') =>
          if s = "def" then (.defToken, lc', rest')
          else if s = "extern" then (.externToken, lc', rest')
          else (.identifierToken s, lc', rest')
      else if isdigit c || c = '.' then
        match readNum (String.mk []) c rest with
        | (s, lc', rest') => (.numberToken s, lc', rest')
      else if c = '#' then
        match skipComment rest with
        | (none, rest') => (.eofToken, none, rest')
        | (some nl, rest') => gettokF fuel (some nl) rest'
      else
        match rest with
        | [] => (.charToken c, none, [])
        | d :: rest' => (.charToken c, some d, rest')

/-- One `gettok()` call. -/
def gettok (lc : Option Char) (input : List Char) : Tok × Option Char × List Char :=
  gettokF (input.length + 1) lc input

/-- Repeated `gettok()` until EOF, fuel-indexed (each emitted token
consumes at least one unit of pushback-plus-input, so `input.length + 1`
tokens is an upper bound). -/
def tokenizeF : Nat → Option Char → List Char → List Tok
  | 0, _, _ => []
  | fuel+1, lc, input =>
    match gettok lc input with
    | (.eofToken, _, _) => []
    | (t, lc', input') => t :: tokenizeF fuel lc' input'

/-- The full token stream of an input, starting from the seeded
pushback buffer `static int LastChar = ' '`. -/
def tokenize (input : List Char) : List Tok :=
  tokenizeF (input.length + 1) (some ' ') input

def tokenizeStr (s : String) : List Tok := tokenize s.data

/-! ### The AST (`ExprAST` and its subclasses, `PrototypeAST`, `FunctionAST`). -/

inductive Expr where
  | NumberExpr (val : ℚ)
  | VariableExpr (name : String)
  | BinaryExpr (op : Char) (lhs rhs : Expr)
  | CallExpr (callee : String) (args : List Expr)

structure PrototypeAST where
  name : String
  args : List String
deriving DecidableEq

structure FunctionAST where
  proto : PrototypeAST
  body : Expr

/-! ### The precedence table and `GetTokPrecedence`.
`BinopPrecedence` is a `std::map<char, int>`, modelled as an association
list without duplicate keys; `main` installs `<`:10, `+`:20, `-`:20,
`*`:40 before parsing.  `std::map::operator[]` on an absent key
default-inserts the key with value 0 (`mapIndex` below); the pure value
it yields is "stored value, or 0 if absent" (`mapGet`). -/

def mapFind (c : Char) : List (Char × Int) → Option Int
  | [] => none
  | (k, v) :: rest => if k = c then some v else mapFind c rest

def mapGet (m : List (Char × Int)) (c : Char) : Int := (mapFind c m).getD 0

/-- Behaviour of `BinopPrecedence[CurTok]` (`std::map::operator[]`):
returns the stored value, default-inserting 0 for an absent key. -/
def mapIndex (m : List (Char × Int)) (c : Char) : Int × List (Char × Int) :=
  match mapFind c m with
  | some v => (v, m)
  | none => (0, m ++ [(c, 0)])

/-- The table as `main` sets it up before the read loop. -/
def BinopPrecedence : List (Char × Int) :=
  [('<', 10), ('+', 20), ('-', 20), ('*', 40)]

/-- Value returned by `GetTokPrecedence` for a given table contents:
-1 unless the current token is an ASCII character with positive stored
precedence.  (Sentinel tokens are negative `int`s, hence not `isascii`;
characters read by `getchar` are the byte values 0..255.) -/
def GetTokPrecedenceOf (m : List (Char × Int)) (t : Tok) : Int :=
  match t with
  | .charToken c =>
    if c.toNat ≤ 127 then
      let tokPrec := mapGet m c
      if tokPrec ≤ 0 then -1 else tokPrec
    else -1
  | _ => -1

def GetTokPrecedence (t : Tok) : Int := GetTokPrecedenceOf BinopPrecedence t

/-- Function `GetTokPrecedence` together with its `operator[]` side effect on the
table (the returned table is the table after the call). -/
def GetTokPrecedenceSt (m : List (Char × Int)) (t : Tok) : Int × List (Char × Int) :=
  match t with
  | .charToken c =>
    if c.toNat ≤ 127 then
      let r := mapIndex m c
      (if r.1 ≤ 0 then -1 else r.1, r.2)
    else (-1, m)
  | _ => (-1, m)

/-! ### The parser.
The global cursor `CurTok` is the head of the remaining token stream. -/

/-- The current token (`CurTok`); once the input is exhausted the lexer
keeps returning EOF. -/
def curTok : List Tok → Tok
  | [] => .eofToken
  | t :: _ => t

/-- Effect of `getNextToken()` on the remaining stream. -/
def advance : List Tok → List Tok
  | [] => []
  | _ :: ts => ts

/-- The character a binary-operator token was read from (`BinOp = CurTok`,
stored as the `char Op` of `BinaryExprAST`; only reached for character
tokens). -/
def tokChar : Tok → Char
  | .charToken c => c
  | _ => '\x00'

/-- Source `ParseNumberExpr`: builds a `NumberExprAST` from `NumVal` (the
`strtod` value of the current number token's text), then advances. -/
def ParseNumberExpr (val : ℚ) (toks : List Tok) : Option Expr × List Tok :=
  (some (.NumberExpr val), advance toks)

mutual

/-- Source `ParseExpression`: `ParsePrimary` then `ParseBinOpRHS(0, lhs)`. -/
def ParseExpressionF : Nat → List Tok → Option Expr × List Tok
  | 0, toks => (none, toks)
  | fuel+1, toks =>
    match ParsePrimaryF fuel toks with
    | (none, t) => (none, t)
    | (some lhs, t) => ParseBinOpRHSF fuel 0 lhs t

/-- Source `ParsePrimary`: dispatch on the current token kind. -/
def ParsePrimaryF : Nat → List Tok → Option Expr × List Tok
  | 0, toks => (none, toks)
  | fuel+1, toks =>
    match curTok toks with
    | .identifierToken idName => ParseIdentifierExprF fuel idName toks
    | .numberToken s => ParseNumberExpr (strtodQ s) toks
    | .charToken c =>
      if c = '(' then ParseParenExprF fuel toks
      else (none, toks)
    | _ => (none, toks)

/-- Source `ParseParenExpr`: eat `(`, parse an expression, require `)`. -/
def ParseParenExprF : Nat → List Tok → Option Expr × List Tok
  | 0, toks => (none, toks)
  | fuel+1, toks =>
    match ParseExpressionF fuel (advance toks) with
    | (none, t) => (none, t)
    | (some v, t) =>
      if curTok t = .charToken ')' then (some v, advance t)
      else (none, t)

/-- Source `ParseIdentifierExpr` after reading `IdName` from `IdentifierStr`:
a variable reference, or a call when a `(` follows. -/
def ParseIdentifierExprF : Nat → String → List Tok → Option Expr × List Tok
  | 0, _, toks => (none, toks)
  | fuel+1, idName, toks =>
    let toks1 := advance toks
    if curTok toks1 = .charToken '(' then
      let toks2 := advance toks1
      if curTok toks2 = .charToken ')' then
        (some (.CallExpr idName []), advance toks2)
      else
        match ParseCallArgsF fuel [] toks2 with
        | (none, t) => (none, t)
        | (some args, t) => (some (.CallExpr idName args), advance t)
    else (some (.VariableExpr idName), toks1)

/-- The argument loop of `ParseIdentifierExpr`: comma-separated
expressions until `)` (the caller eats the `)`). -/
def ParseCallArgsF : Nat → List Expr → List Tok → Option (List Expr) × List Tok
  | 0, _, toks => (none, toks)
  | fuel+1, args, toks =>
    match ParseExpressionF fuel toks with
    | (none, t) => (none, t)
    | (some arg, t) =>
      if curTok t = .charToken ')' then (some (args ++ [arg]), t)
      else if curTok t = .charToken ',' then
        ParseCallArgsF fuel (args ++ [arg]) (advance t)
      else (none, t)

/-- Source `ParseBinOpRHS`: the precedence-climbing loop.  The `while (true)`
iteration is the tail self-call with the merged `lhs`. -/
def ParseBinOpRHSF : Nat → Int → Expr → List Tok → Option Expr × List Tok
  | 0, _, _, toks => (none, toks)
  | fuel+1, exprPrec, lhs, toks =>
    if GetTokPrecedence (curTok toks) < exprPrec then (some lhs, toks)
    else
      let binOp := tokChar (curTok toks)
      match ParsePrimaryF fuel (advance toks) with
      | (none, t) => (none, t)
      | (some rhs, t) =>
        if GetTokPrecedence (curTok toks) < GetTokPrecedence (curTok t) then
          match ParseBinOpRHSF fuel (GetTokPrecedence (curTok toks) + 1) rhs t with
          | (none, t2) => (none, t2)
          | (some rhs2, t2) =>
            ParseBinOpRHSF fuel exprPrec (.BinaryExpr binOp lhs rhs2) t2
        else
          ParseBinOpRHSF fuel exprPrec (.BinaryExpr binOp lhs rhs) t

end

/-- The argument-collecting loop of `ParsePrototype`:
`while (getNextToken() == IdentifierToken) ArgNames.push_back(IdentifierStr);`. -/
def ParseProtoArgs (acc : List String) : List Tok → List String × List Tok
  | [] => (acc, [])
  | _ :: rest =>
    match rest with
    | .identifierToken s :: _ => ParseProtoArgs (acc ++ [s]) rest
    | _ => (acc, rest)

/-- Source `ParsePrototype`: `id '(' id* ')'`. -/
def ParsePrototype (toks : List Tok) : Option PrototypeAST × List Tok :=
  match curTok toks with
  | .identifierToken fnName =>
    let toks1 := advance toks
    if curTok toks1 = .charToken '(' then
      match ParseProtoArgs [] toks1 with
      | (argNames, t) =>
        if curTok t = .charToken ')' then (some ⟨fnName, argNames⟩, advance t)
        else (none, t)
    else (none, toks1)
  | _ => (none, toks)

/-- Source `ParseDefinition`: eat `def`, parse a prototype then a body. -/
def ParseDefinitionF (fuel : Nat) (toks : List Tok) : Option FunctionAST × List Tok :=
  match ParsePrototype (advance toks) with
  | (none, t) => (none, t)
  | (some proto, t) =>
    match ParseExpressionF fuel t with
    | (some e, t2) => (some ⟨proto, e⟩, t2)
    | (none, t2) => (none, t2)

/-- Source `ParseTopLevelExpr`: wrap a bare expression in an anonymous function. -/
def ParseTopLevelExprF (fuel : Nat) (toks : List Tok) : Option FunctionAST × List Tok :=
  match ParseExpressionF fuel toks with
  | (some e, t) => (some ⟨⟨"__anon_expr", []⟩, e⟩, t)
  | (none, t) => (none, t)

/-- Source `ParseExtern`: eat `extern`, delegate to `ParsePrototype`. -/
def ParseExtern (toks : List Tok) : Option PrototypeAST × List Tok :=
  ParsePrototype (advance toks)

/-- Source `HandleDefinition`: on failure, skip one token for error recovery. -/
def HandleDefinitionF (fuel : Nat) (toks : List Tok) : Option FunctionAST × List Tok :=
  match ParseDefinitionF fuel toks with
  | (some f, t) => (some f, t)
  | (none, t) => (none, advance t)

/-- Source `HandleExtern`: on failure, skip one token for error recovery. -/
def HandleExternF (toks : List Tok) : Option PrototypeAST × List Tok :=
  match ParseExtern toks with
  | (some p, t) => (some p, t)
  | (none, t) => (none, advance t)

/-- Source `HandleTopLevelExpression`: on failure, skip one token. -/
def HandleTopLevelExpressionF (fuel : Nat) (toks : List Tok) : Option FunctionAST × List Tok :=
  match ParseTopLevelExprF fuel toks with
  | (some f, t) => (some f, t)
  | (none, t) => (none, advance t)

/-- Ample fuel: the fueled parsers consume a unit per nested call, and
every chain of eight calls consumes at least one token. -/
def parseFuel (toks : List Tok) : Nat := 8 * toks.length + 8

def ParseExpression (toks : List Tok) : Option Expr × List Tok :=
  ParseExpressionF (parseFuel toks) toks

def ParsePrimary (toks : List Tok) : Option Expr × List Tok :=
  ParsePrimaryF (parseFuel toks) toks

def ParseBinOpRHS (exprPrec : Int) (lhs : Expr) (toks : List Tok) : Option Expr × List Tok :=
  ParseBinOpRHSF (parseFuel toks) exprPrec lhs toks

def ParseDefinition (toks : List Tok) : Option FunctionAST × List Tok :=
  ParseDefinitionF (parseFuel toks) toks

def ParseTopLevelExpr (toks : List Tok) : Option FunctionAST × List Tok :=
  ParseTopLevelExprF (parseFuel toks) toks

/-! ## Values of `strtodQ` on the concrete literals of the specification -/

theorem strtodQ_one : strtodQ "1" = 1 := by
  show intPartVal ['1'] = 1
  norm_num [intPartVal, digitVal, show ('1').toNat = 49 from rfl]

theorem strtodQ_two : strtodQ "2" = 2 := by
  show intPartVal ['2'] = 2
  norm_num [intPartVal, digitVal, show ('2').toNat = 50 from rfl]

theorem strtodQ_three : strtodQ "3" = 3 := by
  show intPartVal ['3'] = 3
  norm_num [intPartVal, digitVal, show ('3').toNat = 51 from rfl]

theorem strtodQ_pi : strtodQ "3.14" = 157 / 50 := by
  show intPartVal ['3'] + fracPartVal ['1', '4'] = 157 / 50
  norm_num [intPartVal, fracPartVal, digitVal, show ('3').toNat = 51 from rfl,
    show ('1').toNat = 49 from rfl, show ('4').toNat = 52 from rfl]

theorem strtodQ_half : strtodQ ".5" = 1 / 2 := by
  show intPartVal [] + fracPartVal ['5'] = 1 / 2
  norm_num [intPartVal, fracPartVal, digitVal, show ('5').toNat = 53 from rfl]

theorem strtodQ_malformed : strtodQ "1.2.3" = 6 / 5 := by
  show intPartVal ['1'] + fracPartVal ['2'] = 6 / 5
  norm_num [intPartVal, fracPartVal, digitVal, show ('1').toNat = 49 from rfl,
    show ('2').toNat = 50 from rfl]

/-! ## C1, C2: precedence climbing on the specification's inputs -/

/-- C1: parsing `"1+2*3"` (precedence table `+`:20, `*`:40) yields
`BinaryOp('+', NumberLiteral(1), BinaryOp('*', NumberLiteral(2),
NumberLiteral(3)))`: when the operator after the just-parsed right-hand
side binds strictly tighter than the just-consumed operator, the
recursive `ParseBinOpRHS` call absorbs it into the right-hand side, so
`*` binds tighter than `+`. -/
theorem claim_C1_mul_binds_tighter :
    ParseExpression (tokenizeStr "1+2*3") =
      (some (.BinaryExpr '+' (.NumberExpr (strtodQ "1"))
        (.BinaryExpr '*' (.NumberExpr (strtodQ "2")) (.NumberExpr (strtodQ "3")))), []) ∧
    strtodQ "1" = 1 ∧ strtodQ "2" = 2 ∧ strtodQ "3" = 3 ∧
    mapGet BinopPrecedence '+' = 20 ∧ mapGet BinopPrecedence '*' = 40 :=
  ⟨rfl, strtodQ_one, strtodQ_two, strtodQ_three, by decide, by decide⟩

/-- C2: operators of equal precedence associate to the left (the
recursive call is made only on strictly greater precedence): parsing
`"1-2-3"` yields `BinaryOp('-', BinaryOp('-', 1, 2), 3)` and never a
right-nested tree. -/
theorem claim_C2_equal_precedence_left_assoc :
    ParseExpression (tokenizeStr "1-2-3") =
      (some (.BinaryExpr '-'
        (.BinaryExpr '-' (.NumberExpr (strtodQ "1")) (.NumberExpr (strtodQ "2")))
        (.NumberExpr (strtodQ "3"))), []) ∧
    ∀ a b c : Expr,
      (ParseExpression (tokenizeStr "1-2-3")).1 ≠ some (.BinaryExpr '-' a (.BinaryExpr '-' b c)) := by
  have h : ParseExpression (tokenizeStr "1-2-3") =
      (some (.BinaryExpr '-'
        (.BinaryExpr '-' (.NumberExpr (strtodQ "1")) (.NumberExpr (strtodQ "2")))
        (.NumberExpr (strtodQ "3"))), []) := rfl
  refine ⟨h, ?_⟩
  intro a b c hbad
  rw [h] at hbad
  simp at hbad

/-- C2 witness: the parse of `"1-2-3"` is not the particular right-nested
tree `BinaryOp('-', 1, BinaryOp('-', 2, 3))`. -/
theorem claim_C2_witness :
    (ParseExpression (tokenizeStr "1-2-3")).1 ≠
      some (.BinaryExpr '-' (.NumberExpr (strtodQ "1"))
        (.BinaryExpr '-' (.NumberExpr (strtodQ "2")) (.NumberExpr (strtodQ "3")))) :=
  claim_C2_equal_precedence_left_assoc.2 _ _ _

/-! ## C3: tokens outside the precedence table stop binary-expression extension -/

/-- C3: any current token that is not a table entry with positive
precedence (EOF, identifiers, numbers, and any character not mapped to a
positive precedence) gets precedence -1 from `GetTokPrecedence`, and
`ParseBinOpRHS`, seeing a precedence below its `exprPrec` argument,
returns its `lhs` argument unchanged without consuming anything. -/
theorem claim_C3_non_operators_stop_binop :
    (∀ t : Tok, (∀ c, t = .charToken c → mapGet BinopPrecedence c ≤ 0) →
      GetTokPrecedence t = -1) ∧
    (∀ (fuel : Nat) (exprPrec : Int) (lhs : Expr) (toks : List Tok),
      GetTokPrecedence (curTok toks) < exprPrec →
      ParseBinOpRHSF (fuel + 1) exprPrec lhs toks = (some lhs, toks)) := by
  constructor
  · intro t h
    cases t with
    | charToken c =>
      have hc := h c rfl
      simp only [GetTokPrecedence, GetTokPrecedenceOf]
      split
      · simp [if_pos hc]
      · rfl
    | eofToken => rfl
    | defToken => rfl
    | externToken => rfl
    | identifierToken s => rfl
    | numberToken s => rfl
  · intro fuel exprPrec lhs toks h
    simp only [ParseBinOpRHSF, if_pos h]

/-- C3 witness: at EOF the reported precedence is -1, and with the
current token an identifier (precedence -1 < 0) `ParseBinOpRHS` hands
back its left-hand side with the stream untouched. -/
theorem claim_C3_witness :
    GetTokPrecedence .eofToken = -1 ∧
    ParseBinOpRHSF 1 0 (.NumberExpr 1) [.identifierToken "x"] =
      (some (.NumberExpr 1), [.identifierToken "x"]) :=
  ⟨claim_C3_non_operators_stop_binop.1 .eofToken (by intro c h; cases h),
   claim_C3_non_operators_stop_binop.2 0 0 (.NumberExpr 1) [.identifierToken "x"] (by decide)⟩

/-! ## Lexer lemmas -/

theorem isspace_eq_false_of_isalpha {c : Char} (h : isalpha c = true) :
    isspace c = false := by
  simp only [isalpha, Bool.or_eq_true, Bool.and_eq_true, decide_eq_true_eq] at h
  simp only [isspace, Bool.or_eq_false_iff, Bool.and_eq_false_iff,
    decide_eq_false_iff_not]
  omega

theorem numchar_toNat {c : Char} (h : (isdigit c || c = '.') = true) :
    (48 ≤ c.toNat ∧ c.toNat ≤ 57) ∨ c.toNat = 46 := by
  simp only [Bool.or_eq_true, isdigit, Bool.and_eq_true, decide_eq_true_eq] at h
  rcases h with h | h
  · exact Or.inl h
  · exact Or.inr (by rw [h]; rfl)

theorem isspace_eq_false_of_numchar {c : Char} (h : (isdigit c || c = '.') = true) :
    isspace c = false := by
  have := numchar_toNat h
  simp only [isspace, Bool.or_eq_false_iff, Bool.and_eq_false_iff,
    decide_eq_false_iff_not]
  omega

theorem isalpha_eq_false_of_numchar {c : Char} (h : (isdigit c || c = '.') = true) :
    isalpha c = false := by
  have := numchar_toNat h
  simp only [isalpha, Bool.or_eq_false_iff, Bool.and_eq_false_iff,
    decide_eq_false_iff_not]
  omega

/-- A maximal alphanumeric run is consumed whole by the identifier loop;
the stopping character becomes the new pushback character. -/
theorem readIdent_run (cs : List Char) : ∀ (acc : String) (d : Char) (rest : List Char),
    (∀ x ∈ cs, isalnum x = true) → isalnum d = false →
    readIdent acc (cs ++ d :: rest) = (⟨acc.data ++ cs⟩, some d, rest) := by
  induction cs with
  | nil =>
    intro acc d rest _ hd
    simp [readIdent, hd]
  | cons x xs ih =>
    intro acc d rest hall hd
    have hx : isalnum x = true := hall x (List.mem_cons_self x xs)
    have h1 : readIdent acc ((x :: xs) ++ d :: rest) =
        readIdent (acc.push x) (xs ++ d :: rest) := by
      simp only [List.cons_append, readIdent, if_pos hx]
      rfl
    rw [h1, ih (acc.push x) d rest (fun y hy => hall y (List.mem_cons_of_mem x hy)) hd]
    have hpush : (acc.push x).data = acc.data ++ [x] := rfl
    rw [hpush, List.append_assoc]
    rfl

/-- A maximal run of digit or `'.'` characters is consumed whole by the
number loop (first character from the pushback buffer, rest from input);
the stopping character becomes the new pushback character. -/
theorem readNum_run (cs : List Char) : ∀ (acc : String) (c d : Char) (rest : List Char),
    (∀ x ∈ cs, (isdigit x || x = '.') = true) → (isdigit d || d = '.') = false →
    readNum acc c (cs ++ d :: rest) = (⟨acc.data ++ c :: cs⟩, some d, rest) := by
  induction cs with
  | nil =>
    intro acc c d rest _ hd
    simp only [List.nil_append, readNum, hd, Bool.false_eq_true, if_false]
    exact rfl
  | cons x xs ih =>
    intro acc c d rest hall hd
    have hx : (isdigit x || x = '.') = true := hall x (List.mem_cons_self x xs)
    have h1 : readNum acc c ((x :: xs) ++ d :: rest) =
        readNum (acc.push c) x (xs ++ d :: rest) := by
      simp only [List.cons_append, readNum, if_pos hx]
      rfl
    rw [h1, ih (acc.push c) x d rest (fun y hy => hall y (List.mem_cons_of_mem x hy)) hd]
    have hpush : (acc.push c).data = acc.data ++ [c] := rfl
    rw [hpush, List.append_assoc]
    rfl

/-- The comment loop discards everything up to the next newline, which
becomes the pushback character. -/
theorem skipComment_run (pre : List Char) : ∀ rest : List Char,
    (∀ x ∈ pre, x ≠ '\n' ∧ x ≠ '\r') →
    skipComment (pre ++ '\n' :: rest) = (some '\n', rest) := by
  induction pre with
  | nil =>
    intro rest _
    simp [skipComment]
  | cons x xs ih =>
    intro rest hall
    have hx := hall x (List.mem_cons_self x xs)
    have h1 : skipComment ((x :: xs) ++ '\n' :: rest) = skipComment (xs ++ '\n' :: rest) := by
      simp only [List.cons_append, skipComment]
      rw [if_pos (by simp [hx.1, hx.2])]
      rfl
    rw [h1, ih rest (fun y hy => hall y (List.mem_cons_of_mem x hy))]

/-- The identifier loop only ever appends to its accumulator. -/
theorem readIdent_acc_leads : ∀ (input : List Char) (acc s : String)
    (lc : Option Char) (rest : List Char), readIdent acc input = (s, lc, rest) →
    ∃ l, s.data = acc.data ++ l := by
  intro input
  induction input with
  | nil =>
    intro acc s lc rest h
    simp only [readIdent, Prod.mk.injEq] at h
    exact ⟨[], by simp [← h.1]⟩
  | cons c cs ih =>
    intro acc s lc rest h
    simp only [readIdent] at h
    by_cases hc : isalnum c = true
    · rw [if_pos hc] at h
      obtain ⟨l, hl⟩ := ih (acc.push c) s lc rest h
      refine ⟨c :: l, ?_⟩
      rw [hl, show (acc.push c).data = acc.data ++ [c] from rfl, List.append_assoc]
      rfl
    · rw [if_neg hc] at h
      simp only [Prod.mk.injEq] at h
      exact ⟨[], by simp [← h.1]⟩

theorem skipSpaces_not_space {c : Char} (input : List Char) (h : isspace c = false) :
    skipSpaces (some c) input = (some c, input) := by
  cases input with
  | nil => simp [skipSpaces, h]
  | cons d rest => simp [skipSpaces, h]

/-- Classification step at the end of the identifier branch of `gettok`. -/
def classifyIdent (s : String) : Tok :=
  if s = "def" then .defToken
  else if s = "extern" then .externToken
  else .identifierToken s

/-- With an alphabetic pushback character, `gettok` consumes the maximal
alphanumeric run and classifies it (`def` / `extern` / identifier). -/
theorem gettokF_alpha_run (fuel : Nat) (c : Char) (cs : List Char) (d : Char)
    (rest : List Char) (hca : isalpha c = true) (hall : ∀ x ∈ cs, isalnum x = true)
    (hd : isalnum d = false) :
    gettokF (fuel + 1) (some c) (cs ++ d :: rest) =
      (classifyIdent ⟨c :: cs⟩, some d, rest) := by
  simp only [gettokF, skipSpaces_not_space _ (isspace_eq_false_of_isalpha hca), if_pos hca]
  rw [readIdent_run cs (String.mk [c]) d rest hall hd]
  simp only [show ((String.mk [c]).data ++ cs) = c :: cs from rfl, classifyIdent]
  split_ifs <;> rfl

/-- With a digit-or-dot pushback character, `gettok` consumes the maximal
digit-or-dot run and emits a single `Number` token carrying it. -/
theorem gettokF_number_run (fuel : Nat) (c : Char) (cs : List Char) (d : Char)
    (rest : List Char) (hc : (isdigit c || c = '.') = true)
    (hall : ∀ x ∈ cs, (isdigit x || x = '.') = true)
    (hd : (isdigit d || d = '.') = false) :
    gettokF (fuel + 1) (some c) (cs ++ d :: rest) = (.numberToken ⟨c :: cs⟩, some d, rest) := by
  simp only [gettokF, skipSpaces_not_space _ (isspace_eq_false_of_numchar hc),
    isalpha_eq_false_of_numchar hc, Bool.false_eq_true, if_false, if_pos hc]
  rw [readNum_run cs (String.mk []) c d rest hall hd]
  simp only [show ((String.mk []).data ++ c :: cs) = c :: cs from rfl]

/-- With `'#'` in the pushback buffer and a newline ahead, `gettok`
discards the comment and scans again from the newline: no token is
emitted for comment text. -/
theorem gettokF_comment (fuel : Nat) (pre : List Char) (rest : List Char)
    (hpre : ∀ x ∈ pre, x ≠ '\n' ∧ x ≠ '\r') :
    gettokF (fuel + 1) (some '#') (pre ++ '\n' :: rest) = gettokF fuel (some '\n') rest := by
  have h1 : skipSpaces (some '#') (pre ++ '\n' :: rest) = (some '#', pre ++ '\n' :: rest) :=
    skipSpaces_not_space _ rfl
  simp only [gettokF, h1, show isalpha '#' = false from rfl,
    show (isdigit '#' || '#' = '.') = false from rfl, Bool.false_eq_true, if_false,
    if_pos (show ('#' : Char) = '#' from rfl)]
  rw [skipComment_run pre rest hpre]
  simp

/-- Inversion for identifier tokens: whenever `gettok` yields an
`Identifier` token, its text is not `"def"` or `"extern"` and begins
with an alphabetic character. -/
theorem gettokF_identifier_inv : ∀ (fuel : Nat) (lc : Option Char) (input : List Char)
    (s : String) (lc2 : Option Char) (rest : List Char),
    gettokF fuel lc input = (.identifierToken s, lc2, rest) →
    s ≠ "def" ∧ s ≠ "extern" ∧ ∃ c cs, s.data = c :: cs ∧ isalpha c = true := by
  intro fuel
  induction fuel with
  | zero =>
    intro lc input s lc2 rest h
    exact absurd h (by simp [gettokF])
  | succ n ih =>
    intro lc input s lc2 rest h
    simp only [gettokF] at h
    cases hs : skipSpaces lc input with
    | mk oc rest0 =>
      rw [hs] at h
      cases oc with
      | none => exact absurd h (by simp)
      | some c =>
        simp only at h
        by_cases hca : isalpha c = true
        · rw [if_pos hca] at h
          cases hr : readIdent (String.mk [c]) rest0 with
          | mk s1 p =>
            obtain ⟨lc1, rest1⟩ := p
            rw [hr] at h
            simp only at h
            by_cases hdef : s1 = "def"
            · rw [if_pos hdef] at h
              exact absurd h (by simp)
            · rw [if_neg hdef] at h
              by_cases hext : s1 = "extern"
              · rw [if_pos hext] at h
                exact absurd h (by simp)
              · rw [if_neg hext] at h
                simp only [Prod.mk.injEq, Tok.identifierToken.injEq] at h
                obtain ⟨hs1, -, -⟩ := h
                subst hs1
                obtain ⟨l, hl⟩ := readIdent_acc_leads rest0 (String.mk [c]) s1 lc1 rest1 hr
                exact ⟨hdef, hext, c, l, by simpa using hl, hca⟩
        · rw [if_neg hca] at h
          by_cases hnum : (isdigit c || c = '.') = true
          · rw [if_pos hnum] at h
            cases hr : readNum (String.mk []) c rest0 with
            | mk s1 p =>
              rw [hr] at h
              exact absurd h (by simp)
          · rw [if_neg hnum] at h
            by_cases hhash : c = '#'
            · rw [if_pos hhash] at h
              cases hc : skipComment rest0 with
              | mk onl rest1 =>
                rw [hc] at h
                cases onl with
                | none => exact absurd h (by simp)
                | some nl => exact ih (some nl) rest1 s lc2 rest h
            · rw [if_neg hhash] at h
              cases rest0 with
              | nil => exact absurd h (by simp)
              | cons d rest1 => exact absurd h (by simp)

/-- No input character stream makes the lexer emit an `Identifier` token
whose text is the reserved anonymous name (its first character would
have to be alphabetic, but `"__anon_expr"` begins with `'_'`). -/
theorem tokenizeF_no_anon : ∀ (fuel : Nat) (lc : Option Char) (input : List Char),
    Tok.identifierToken "__anon_expr" ∉ tokenizeF fuel lc input := by
  intro fuel
  induction fuel with
  | zero => intro lc input; simp [tokenizeF]
  | succ n ih =>
    intro lc input
    simp only [tokenizeF]
    cases hg : gettok lc input with
    | mk t p =>
      obtain ⟨lc1, input1⟩ := p
      cases t with
      | eofToken => simp
      | identifierToken s =>
        simp only [List.mem_cons]
        rintro (hbad | hmem)
        · have hinv := gettokF_identifier_inv (input.length + 1) lc input s lc1 input1 hg
          obtain ⟨-, -, c, cs, hdata, hca⟩ := hinv
          have hseq : s = "__anon_expr" := by
            injection hbad with h1
            exact h1.symm
          rw [hseq] at hdata
          have hcu : c = '_' := by
            have h0 : ("__anon_expr").data.head? = some '_' := rfl
            rw [hdata] at h0
            simp only [List.head?, Option.some.injEq] at h0
            exact h0
          rw [hcu] at hca
          exact absurd hca (by decide)
        · exact ih lc1 input1 hmem
      | defToken =>
        simp only [List.mem_cons]
        rintro (hbad | hmem)
        · exact absurd hbad (by simp)
        · exact ih lc1 input1 hmem
      | externToken =>
        simp only [List.mem_cons]
        rintro (hbad | hmem)
        · exact absurd hbad (by simp)
        · exact ih lc1 input1 hmem
      | numberToken s1 =>
        simp only [List.mem_cons]
        rintro (hbad | hmem)
        · exact absurd hbad (by simp)
        · exact ih lc1 input1 hmem
      | charToken c =>
        simp only [List.mem_cons]
        rintro (hbad | hmem)
        · exact absurd hbad (by simp)
        · exact ih lc1 input1 hmem

/-! ## Parser unfolding lemmas used by the lexer-facing claims -/

/-- When the current token is a number token, `ParsePrimary` builds a
`NumberLiteral` whose payload is the `strtod` conversion of the token's
scanned text, and advances. -/
theorem ParsePrimaryF_number (fuel : Nat) (s : String) (toks : List Tok)
    (h : curTok toks = .numberToken s) :
    ParsePrimaryF (fuel + 1) toks = (some (.NumberExpr (strtodQ s)), advance toks) := by
  simp only [ParsePrimaryF, h, ParseNumberExpr]

/-- A successful `ParseTopLevelExpr` always wraps the expression in a
`Function` whose `Prototype` is the anonymous one with no parameters. -/
theorem ParseTopLevelExprF_success_proto : ∀ (fuel : Nat) (toks : List Tok)
    (f : FunctionAST) (t : List Tok), ParseTopLevelExprF fuel toks = (some f, t) →
    f.proto = ⟨"__anon_expr", []⟩ := by
  intro fuel toks f t h
  simp only [ParseTopLevelExprF] at h
  cases he : ParseExpressionF fuel toks with
  | mk oe t2 =>
    rw [he] at h
    cases oe with
    | none => exact absurd h (by simp)
    | some e =>
      simp only [Prod.mk.injEq, Option.some.injEq] at h
      rw [← h.1]

/-! ## C6, C7, C8, C9: the lexer claims -/

/-- C6: lexing the exact texts `"def"` and `"extern"` always yields the
dedicated keyword tokens and never an `Identifier` token carrying that
text; every other alphabetic-initial alphanumeric run yields an
`Identifier` token carrying the scanned text. -/
theorem claim_C6_keywords_never_identifiers :
    (∀ (fuel : Nat) (c : Char) (cs : List Char) (d : Char) (rest : List Char),
      isalpha c = true → (∀ x ∈ cs, isalnum x = true) → isalnum d = false →
      gettokF (fuel + 1) (some c) (cs ++ d :: rest) =
        (if (⟨c :: cs⟩ : String) = "def" then .defToken
         else if (⟨c :: cs⟩ : String) = "extern" then .externToken
         else .identifierToken ⟨c :: cs⟩, some d, rest)) ∧
    (∀ (fuel : Nat) (lc : Option Char) (input : List Char) (s : String)
      (lc2 : Option Char) (rest : List Char),
      gettokF fuel lc input = (.identifierToken s, lc2, rest) →
      s ≠ "def" ∧ s ≠ "extern") ∧
    tokenizeStr "def extern definitely" =
      [.defToken, .externToken, .identifierToken "definitely"] := by
  refine ⟨?_, ?_, rfl⟩
  · intro fuel c cs d rest hca hall hd
    exact gettokF_alpha_run fuel c cs d rest hca hall hd
  · intro fuel lc input s lc2 rest h
    have hinv := gettokF_identifier_inv fuel lc input s lc2 rest h
    exact ⟨hinv.1, hinv.2.1⟩

/-- C6 witness: the one-letter run `x` terminated by a space lexes to an
`Identifier` token carrying `"x"`. -/
theorem claim_C6_witness :
    gettokF 1 (some 'x') [' '] = (.identifierToken "x", some ' ', []) :=
  (claim_C6_keywords_never_identifiers.1 0 'x' [] ' ' [] rfl (by simp) rfl).trans (by decide)

/-- C7: a `'#'` begins a comment: the lexer discards everything through
the end of the line and then scans the next real token, so no token is
ever emitted for comment text; lexing `"1 # comment\n2"` yields exactly
`[Number(1), Number(2)]`. -/
theorem claim_C7_comments_produce_no_tokens :
    (∀ (fuel : Nat) (pre rest : List Char), (∀ x ∈ pre, x ≠ '\n' ∧ x ≠ '\r') →
      gettokF (fuel + 1) (some '#') (pre ++ '\n' :: rest) = gettokF fuel (some '\n') rest) ∧
    tokenizeStr "1 # comment\n2" = [.numberToken "1", .numberToken "2"] :=
  ⟨fun fuel pre rest hpre => gettokF_comment fuel pre rest hpre, rfl⟩

/-- C7 witness: skipping the comment body `" "` leaves the lexer
scanning from the newline. -/
theorem claim_C7_witness :
    gettokF 2 (some '#') (' ' :: '\n' :: ['2']) = gettokF 1 (some '\n') ['2'] :=
  claim_C7_comments_produce_no_tokens.1 1 [' '] ['2'] (by decide)

/-- C8: every maximal run of digit or `'.'` characters becomes exactly
one `Number` token whose payload is the conversion of the accumulated
text (`"3.14"` gives 3.14, `".5"` gives 0.5), and malformed text such as
`"1.2.3"` is still one `Number` token (with the conversion routine's
lenient value 1.2), never an error. -/
theorem claim_C8_number_token_per_run :
    (∀ (fuel : Nat) (c : Char) (cs : List Char) (d : Char) (rest : List Char),
      (isdigit c || c = '.') = true → (∀ x ∈ cs, (isdigit x || x = '.') = true) →
      (isdigit d || d = '.') = false →
      gettokF (fuel + 1) (some c) (cs ++ d :: rest) =
        (.numberToken ⟨c :: cs⟩, some d, rest)) ∧
    (∀ (fuel : Nat) (s : String) (toks : List Tok), curTok toks = .numberToken s →
      ParsePrimaryF (fuel + 1) toks = (some (.NumberExpr (strtodQ s)), advance toks)) ∧
    tokenizeStr "3.14" = [.numberToken "3.14"] ∧ strtodQ "3.14" = 157 / 50 ∧
    tokenizeStr ".5" = [.numberToken ".5"] ∧ strtodQ ".5" = 1 / 2 ∧
    tokenizeStr "1.2.3" = [.numberToken "1.2.3"] ∧ strtodQ "1.2.3" = 6 / 5 :=
  ⟨fun fuel c cs d rest hc hall hd => gettokF_number_run fuel c cs d rest hc hall hd,
   fun fuel s toks h => ParsePrimaryF_number fuel s toks h,
   rfl, strtodQ_pi, rfl, strtodQ_half, rfl, strtodQ_malformed⟩

/-- C8 witness: the run `5` terminated by a space lexes to the single
token `Number("5")`. -/
theorem claim_C8_witness :
    gettokF 1 (some '5') [' '] = (.numberToken "5", some ' ', []) :=
  claim_C8_number_token_per_run.1 0 '5' [] ' ' [] rfl (by simp) rfl

/-- C9: `parseTopLevelExpr` wraps the parsed expression in a `Function`
whose `Prototype` has the reserved name `"__anon_expr"` and no
parameters, and no input character stream can make the lexer produce an
`Identifier` token with that text (identifiers start with an alphabetic
character, never `'_'`). -/
theorem claim_C9_anon_name_reserved :
    (∀ (fuel : Nat) (toks : List Tok) (f : FunctionAST) (t : List Tok),
      ParseTopLevelExprF fuel toks = (some f, t) → f.proto = ⟨"__anon_expr", []⟩) ∧
    (∀ (fuel : Nat) (lc : Option Char) (input : List Char),
      Tok.identifierToken "__anon_expr" ∉ tokenizeF fuel lc input) :=
  ⟨ParseTopLevelExprF_success_proto, tokenizeF_no_anon⟩

/-- C9 witness: the top-level parse of the single token `Number("1")`
succeeds and its synthesized prototype is the anonymous one. -/
theorem claim_C9_witness :
    FunctionAST.proto ⟨⟨"__anon_expr", []⟩, .NumberExpr (strtodQ "1")⟩ = ⟨"__anon_expr", []⟩ :=
  claim_C9_anon_name_reserved.1 5 [.numberToken "1"]
    ⟨⟨"__anon_expr", []⟩, .NumberExpr (strtodQ "1")⟩ [] rfl

/-! ## C10: precedence lookups default-insert into the table -/

/-- Auxiliary: a key found in a table is still found, with the same
value, after appending entries. -/
theorem mapFind_append_of_found (m l : List (Char × Int)) (x : Char) (v : Int)
    (h : mapFind x m = some v) : mapFind x (m ++ l) = some v := by
  induction m with
  | nil => simp [mapFind] at h
  | cons kv rest ih =>
    obtain ⟨k, w⟩ := kv
    by_cases hk : k = x
    · simp only [mapFind, if_pos hk] at h ⊢
      exact h
    · simp only [mapFind, if_neg hk] at h ⊢
      exact ih h

/-- Auxiliary: looking up a key absent from `m` in `m ++ [(c, 0)]` finds
the appended entry exactly when the key is `c`. -/
theorem mapFind_append_of_none (m : List (Char × Int)) (c x : Char)
    (h : mapFind x m = none) :
    mapFind x (m ++ [(c, 0)]) = if c = x then some 0 else none := by
  induction m with
  | nil => simp [mapFind]
  | cons kv rest ih =>
    obtain ⟨k, w⟩ := kv
    by_cases hk : k = x
    · simp only [mapFind, if_pos hk] at h
      exact absurd h (by simp)
    · simp only [mapFind, if_neg hk] at h ⊢
      exact ih h

/-- C10: calling `GetTokPrecedence` while the current token is an ASCII
character absent from the table default-inserts that character with
value 0 (`std::map::operator[]`), yet the call still reports -1, and the
added zero-valued entry changes no precedence lookup, so parse results
are unaffected. -/
theorem claim_C10_lookup_inserts_zero_entry :
    ∀ (m : List (Char × Int)) (c : Char), c.toNat ≤ 127 → mapFind c m = none →
      GetTokPrecedenceSt m (.charToken c) = (-1, m ++ [(c, 0)]) ∧
      (∀ t : Tok, GetTokPrecedenceOf (m ++ [(c, 0)]) t = GetTokPrecedenceOf m t) := by
  intro m c hascii habsent
  constructor
  · simp [GetTokPrecedenceSt, if_pos hascii, mapIndex, habsent]
  · intro t
    cases t with
    | charToken x =>
      simp only [GetTokPrecedenceOf, mapGet]
      cases hx : mapFind x m with
      | some v => rw [mapFind_append_of_found m [(c, 0)] x v hx]
      | none =>
        rw [mapFind_append_of_none m c x hx]
        by_cases hcx : c = x
        · simp [hcx]
        · simp [hcx]
    | eofToken => rfl
    | defToken => rfl
    | externToken => rfl
    | identifierToken s => rfl
    | numberToken s => rfl

/-- C10 witness: `';'` is ASCII and absent from the installed table;
looking it up appends `(';', 0)` and still reports precedence -1. -/
theorem claim_C10_witness :
    GetTokPrecedenceSt BinopPrecedence (.charToken ';') =
      (-1, BinopPrecedence ++ [(';', 0)]) :=
  (claim_C10_lookup_inserts_zero_entry BinopPrecedence ';' (by decide) (by decide)).1

/-! ## C4: failure sentinels short-circuit; no partial trees -/

/-- C4: a failed sub-parse returns the no-node sentinel and every caller
checks it immediately and propagates it without further work
(`ParseDefinition` after a failed prototype, `ParseDefinition` after a
failed body, the call-argument loop after a failed argument), and the
concrete parse of `"foo(1 2)"` (missing comma) fails with no partial
`Call` node returned. -/
theorem claim_C4_failure_short_circuits :
    (∀ (fuel : Nat) (toks t : List Tok), ParsePrototype (advance toks) = (none, t) →
      ParseDefinitionF fuel toks = (none, t)) ∧
    (∀ (fuel : Nat) (toks : List Tok) (p : PrototypeAST) (t t2 : List Tok),
      ParsePrototype (advance toks) = (some p, t) → ParseExpressionF fuel t = (none, t2) →
      ParseDefinitionF fuel toks = (none, t2)) ∧
    (∀ (fuel : Nat) (args : List Expr) (toks t : List Tok),
      ParseExpressionF fuel toks = (none, t) →
      ParseCallArgsF (fuel + 1) args toks = (none, t)) ∧
    (ParseTopLevelExpr (tokenizeStr "foo(1 2)")).1 = none := by
  refine ⟨?_, ?_, ?_, rfl⟩
  · intro fuel toks t h
    simp only [ParseDefinitionF, h]
  · intro fuel toks p t t2 h1 h2
    simp only [ParseDefinitionF, h1, h2]
  · intro fuel args toks t h
    simp only [ParseCallArgsF, h]

/-- C4 witness: `def` followed by end of input fails in the prototype
and `ParseDefinition` propagates the sentinel. -/
theorem claim_C4_witness : ParseDefinitionF 5 [Tok.defToken] = (none, []) :=
  claim_C4_failure_short_circuits.1 5 [Tok.defToken] [] rfl

/-! ## C5: every top-level handler advances past the unit it consumed or
abandoned.  The key fact is that no parse function ever lengthens the
remaining token stream, and a successful expression parse consumes at
least one token. -/

theorem advance_length_le (t : List Tok) : (advance t).length ≤ t.length := by
  cases t <;> simp [advance]

theorem advance_length_lt {t : List Tok} (h : t ≠ []) : (advance t).length < t.length := by
  cases t with
  | nil => exact absurd rfl h
  | cons a l => simp [advance]

theorem advance_length_lt_of_le {t toks : List Tok} (h : toks ≠ [])
    (hle : t.length ≤ toks.length) : (advance t).length < toks.length := by
  cases toks with
  | nil => exact absurd rfl h
  | cons a l =>
    cases t with
    | nil => simp [advance]
    | cons b m =>
      simp only [advance, List.length_cons] at *
      omega

theorem ne_nil_of_curTok {toks : List Tok} {t : Tok} (h : curTok toks = t)
    (ht : t ≠ Tok.eofToken) : toks ≠ [] := by
  intro he
  subst he
  exact ht h.symm

/-- Joint induction: no parse function lengthens the token stream;
`ParseExpression` and `ParsePrimary` strictly consume on success, as do
`ParseParenExpr` and `ParseIdentifierExpr` when the stream is nonempty. -/
theorem parseF_mono : ∀ fuel : Nat,
    (∀ toks : List Tok, (ParseExpressionF fuel toks).2.length ≤ toks.length ∧
      ((ParseExpressionF fuel toks).1.isSome →
        (ParseExpressionF fuel toks).2.length < toks.length)) ∧
    (∀ toks : List Tok, (ParsePrimaryF fuel toks).2.length ≤ toks.length ∧
      ((ParsePrimaryF fuel toks).1.isSome →
        (ParsePrimaryF fuel toks).2.length < toks.length)) ∧
    (∀ toks : List Tok, (ParseParenExprF fuel toks).2.length ≤ toks.length ∧
      (toks ≠ [] → (ParseParenExprF fuel toks).1.isSome →
        (ParseParenExprF fuel toks).2.length < toks.length)) ∧
    (∀ (idName : String) (toks : List Tok),
      (ParseIdentifierExprF fuel idName toks).2.length ≤ toks.length ∧
      (toks ≠ [] → (ParseIdentifierExprF fuel idName toks).1.isSome →
        (ParseIdentifierExprF fuel idName toks).2.length < toks.length)) ∧
    (∀ (args : List Expr) (toks : List Tok),
      (ParseCallArgsF fuel args toks).2.length ≤ toks.length) ∧
    (∀ (exprPrec : Int) (lhs : Expr) (toks : List Tok),
      (ParseBinOpRHSF fuel exprPrec lhs toks).2.length ≤ toks.length) := by
  intro fuel
  induction fuel with
  | zero =>
    refine ⟨?_, ?_, ?_, ?_, ?_, ?_⟩
    · intro toks; simp [ParseExpressionF]
    · intro toks; simp [ParsePrimaryF]
    · intro toks; simp [ParseParenExprF]
    · intro idName toks; simp [ParseIdentifierExprF]
    · intro args toks; simp [ParseCallArgsF]
    · intro exprPrec lhs toks; simp [ParseBinOpRHSF]
  | succ n ih =>
    obtain ⟨ihE, ihP, ihParen, ihId, ihArgs, ihB⟩ := ih
    refine ⟨?_, ?_, ?_, ?_, ?_, ?_⟩
    · -- ParseExpression
      intro toks
      cases hp : ParsePrimaryF n toks with
      | mk o t =>
        cases o with
        | none =>
          have h1 := (ihP toks).1
          rw [hp] at h1
          simp only [ParseExpressionF, hp]
          exact ⟨h1, fun hs => absurd hs Bool.false_ne_true⟩
        | some lhs =>
          have h1 : t.length < toks.length := by
            have h2 := (ihP toks).2
            rw [hp] at h2
            exact h2 rfl
          have h3 := ihB 0 lhs t
          simp only [ParseExpressionF, hp]
          exact ⟨le_trans h3 (le_of_lt h1), fun _ => lt_of_le_of_lt h3 h1⟩
    · -- ParsePrimary
      intro toks
      cases hct : curTok toks with
      | identifierToken idName =>
        have hne : toks ≠ [] := ne_nil_of_curTok hct (by simp)
        have h1 := ihId idName toks
        simp only [ParsePrimaryF, hct]
        exact ⟨h1.1, fun hs => h1.2 hne hs⟩
      | numberToken s =>
        have hne : toks ≠ [] := ne_nil_of_curTok hct (by simp)
        simp only [ParsePrimaryF, hct, ParseNumberExpr]
        exact ⟨advance_length_le toks, fun _ => advance_length_lt hne⟩
      | charToken c =>
        by_cases hc : c = '('
        · have hne : toks ≠ [] := ne_nil_of_curTok hct (by simp)
          have h1 := ihParen toks
          simp only [ParsePrimaryF, hct, if_pos hc]
          exact ⟨h1.1, fun hs => h1.2 hne hs⟩
        · simp only [ParsePrimaryF, hct, if_neg hc]
          exact ⟨le_refl _, fun hs => absurd hs Bool.false_ne_true⟩
      | eofToken =>
        simp only [ParsePrimaryF, hct]
        exact ⟨le_refl _, fun hs => absurd hs Bool.false_ne_true⟩
      | defToken =>
        simp only [ParsePrimaryF, hct]
        exact ⟨le_refl _, fun hs => absurd hs Bool.false_ne_true⟩
      | externToken =>
        simp only [ParsePrimaryF, hct]
        exact ⟨le_refl _, fun hs => absurd hs Bool.false_ne_true⟩
    · -- ParseParenExpr
      intro toks
      cases he : ParseExpressionF n (advance toks) with
      | mk oe t =>
        have hEle : t.length ≤ (advance toks).length := by
          have h1 := (ihE (advance toks)).1
          rw [he] at h1
          exact h1
        cases oe with
        | none =>
          simp only [ParseParenExprF, he]
          exact ⟨le_trans hEle (advance_length_le toks),
            fun hne hs => absurd hs Bool.false_ne_true⟩
        | some v =>
          by_cases hp : curTok t = Tok.charToken (')' : Char)
          · simp only [ParseParenExprF, he, if_pos hp]
            refine ⟨le_trans (advance_length_le t)
              (le_trans hEle (advance_length_le toks)), ?_⟩
            intro hne _
            have h1 : t.length < toks.length :=
              lt_of_le_of_lt hEle (advance_length_lt hne)
            exact lt_of_le_of_lt (advance_length_le t) h1
          · simp only [ParseParenExprF, he, if_neg hp]
            exact ⟨le_trans hEle (advance_length_le toks),
              fun hne hs => absurd hs Bool.false_ne_true⟩
    · -- ParseIdentifierExpr
      intro idName toks
      by_cases h1 : curTok (advance toks) = Tok.charToken ('(' : Char)
      · by_cases h2 : curTok (advance (advance toks)) = Tok.charToken (')' : Char)
        · simp only [ParseIdentifierExprF, if_pos h1, if_pos h2]
          refine ⟨le_trans (advance_length_le _)
            (le_trans (advance_length_le _) (advance_length_le _)), ?_⟩
          intro hne _
          exact lt_of_le_of_lt
            (le_trans (advance_length_le _) (advance_length_le _))
            (advance_length_lt hne)
        · cases ha : ParseCallArgsF n [] (advance (advance toks)) with
          | mk oa t =>
            have hAle : t.length ≤ (advance (advance toks)).length := by
              have h3 := ihArgs [] (advance (advance toks))
              rw [ha] at h3
              exact h3
            cases oa with
            | none =>
              simp only [ParseIdentifierExprF, if_pos h1, if_neg h2, ha]
              exact ⟨le_trans hAle (le_trans (advance_length_le _) (advance_length_le _)),
                fun hne hs => absurd hs Bool.false_ne_true⟩
            | some args =>
              simp only [ParseIdentifierExprF, if_pos h1, if_neg h2, ha]
              refine ⟨?_, ?_⟩
              · exact le_trans (advance_length_le t) (le_trans hAle
                  (le_trans (advance_length_le _) (advance_length_le _)))
              · intro hne _
                exact lt_of_le_of_lt
                  (le_trans (advance_length_le t) (le_trans hAle (advance_length_le _)))
                  (advance_length_lt hne)
      · simp only [ParseIdentifierExprF, if_neg h1]
        exact ⟨advance_length_le toks, fun hne _ => advance_length_lt hne⟩
    · -- ParseCallArgs
      intro args toks
      cases he : ParseExpressionF n toks with
      | mk oe t =>
        have hEle : t.length ≤ toks.length := by
          have h1 := (ihE toks).1
          rw [he] at h1
          exact h1
        cases oe with
        | none =>
          simp only [ParseCallArgsF, he]
          exact hEle
        | some arg =>
          by_cases h1 : curTok t = Tok.charToken (')' : Char)
          · simp only [ParseCallArgsF, he, if_pos h1]
            exact hEle
          · by_cases h2 : curTok t = Tok.charToken (',' : Char)
            · simp only [ParseCallArgsF, he, if_neg h1, if_pos h2]
              exact le_trans (ihArgs (args ++ [arg]) (advance t))
                (le_trans (advance_length_le t) hEle)
            · simp only [ParseCallArgsF, he, if_neg h1, if_neg h2]
              exact hEle
    · -- ParseBinOpRHS
      intro exprPrec lhs toks
      by_cases h1 : GetTokPrecedence (curTok toks) < exprPrec
      · simp only [ParseBinOpRHSF, if_pos h1]
        exact le_refl _
      · cases hp : ParsePrimaryF n (advance toks) with
        | mk op t =>
          have hPle : t.length ≤ toks.length := by
            have h2 := (ihP (advance toks)).1
            rw [hp] at h2
            exact le_trans h2 (advance_length_le toks)
          cases op with
          | none =>
            simp only [ParseBinOpRHSF, if_neg h1, hp]
            exact hPle
          | some rhs =>
            by_cases h2 : GetTokPrecedence (curTok toks) < GetTokPrecedence (curTok t)
            · cases hb : ParseBinOpRHSF n (GetTokPrecedence (curTok toks) + 1) rhs t with
              | mk ob t2 =>
                have hBle : t2.length ≤ t.length := by
                  have h3 := ihB (GetTokPrecedence (curTok toks) + 1) rhs t
                  rw [hb] at h3
                  exact h3
                cases ob with
                | none =>
                  simp only [ParseBinOpRHSF, if_neg h1, hp, if_pos h2, hb]
                  exact le_trans hBle hPle
                | some rhs2 =>
                  simp only [ParseBinOpRHSF, if_neg h1, hp, if_pos h2, hb]
                  exact le_trans
                    (ihB exprPrec (.BinaryExpr (tokChar (curTok toks)) lhs rhs2) t2)
                    (le_trans hBle hPle)
            · simp only [ParseBinOpRHSF, if_neg h1, hp, if_neg h2]
              exact le_trans
                (ihB exprPrec (.BinaryExpr (tokChar (curTok toks)) lhs rhs) t) hPle

theorem ParseExpressionF_le (fuel : Nat) (toks : List Tok) :
    (ParseExpressionF fuel toks).2.length ≤ toks.length :=
  ((parseF_mono fuel).1 toks).1

theorem ParseExpressionF_lt_of_isSome (fuel : Nat) (toks : List Tok)
    (h : (ParseExpressionF fuel toks).1.isSome) :
    (ParseExpressionF fuel toks).2.length < toks.length :=
  ((parseF_mono fuel).1 toks).2 h

theorem ParseProtoArgs_le : ∀ (toks : List Tok) (acc : List String),
    (ParseProtoArgs acc toks).2.length ≤ toks.length := by
  intro toks
  induction toks with
  | nil => intro acc; simp [ParseProtoArgs]
  | cons a rest ih =>
    intro acc
    cases rest with
    | nil => simp [ParseProtoArgs]
    | cons b rest2 =>
      cases b with
      | identifierToken s =>
        simp only [ParseProtoArgs]
        exact le_trans (ih (acc ++ [s])) (by simp)
      | eofToken => simp [ParseProtoArgs]
      | defToken => simp [ParseProtoArgs]
      | externToken => simp [ParseProtoArgs]
      | numberToken s1 => simp [ParseProtoArgs]
      | charToken c => simp [ParseProtoArgs]

theorem ParsePrototype_le (toks : List Tok) :
    (ParsePrototype toks).2.length ≤ toks.length := by
  cases hct : curTok toks with
  | identifierToken fnName =>
    by_cases h1 : curTok (advance toks) = Tok.charToken ('(' : Char)
    · cases ha : ParseProtoArgs [] (advance toks) with
      | mk argNames t =>
        have hAle : t.length ≤ (advance toks).length := by
          have h2 := ParseProtoArgs_le (advance toks) []
          rw [ha] at h2
          exact h2
        by_cases h2 : curTok t = Tok.charToken (')' : Char)
        · simp only [ParsePrototype, hct, if_pos h1, ha, if_pos h2]
          exact le_trans (advance_length_le t) (le_trans hAle (advance_length_le toks))
        · simp only [ParsePrototype, hct, if_pos h1, ha, if_neg h2]
          exact le_trans hAle (advance_length_le toks)
    · simp only [ParsePrototype, hct, if_neg h1]
      exact advance_length_le toks
  | eofToken => simp only [ParsePrototype, hct]; exact le_refl _
  | defToken => simp only [ParsePrototype, hct]; exact le_refl _
  | externToken => simp only [ParsePrototype, hct]; exact le_refl _
  | numberToken s => simp only [ParsePrototype, hct]; exact le_refl _
  | charToken c => simp only [ParsePrototype, hct]; exact le_refl _

theorem ParseDefinitionF_le (fuel : Nat) (toks : List Tok) :
    (ParseDefinitionF fuel toks).2.length ≤ (advance toks).length := by
  cases hp : ParsePrototype (advance toks) with
  | mk op t =>
    have h1 : t.length ≤ (advance toks).length := by
      have h2 := ParsePrototype_le (advance toks)
      rw [hp] at h2
      exact h2
    cases op with
    | none =>
      simp only [ParseDefinitionF, hp]
      exact h1
    | some proto =>
      cases he : ParseExpressionF fuel t with
      | mk oe t2 =>
        have h2 : t2.length ≤ t.length := by
          have h3 := ParseExpressionF_le fuel t
          rw [he] at h3
          exact h3
        cases oe with
        | some e =>
          simp only [ParseDefinitionF, hp, he]
          exact le_trans h2 h1
        | none =>
          simp only [ParseDefinitionF, hp, he]
          exact le_trans h2 h1

theorem ParseTopLevelExprF_le (fuel : Nat) (toks : List Tok) :
    (ParseTopLevelExprF fuel toks).2.length ≤ toks.length := by
  cases he : ParseExpressionF fuel toks with
  | mk oe t =>
    have h1 : t.length ≤ toks.length := by
      have h2 := ParseExpressionF_le fuel toks
      rw [he] at h2
      exact h2
    cases oe with
    | some e =>
      simp only [ParseTopLevelExprF, he]
      exact h1
    | none =>
      simp only [ParseTopLevelExprF, he]
      exact h1

theorem ParseTopLevelExprF_lt_of_isSome (fuel : Nat) (toks : List Tok)
    (h : (ParseTopLevelExprF fuel toks).1.isSome) :
    (ParseTopLevelExprF fuel toks).2.length < toks.length := by
  cases he : ParseExpressionF fuel toks with
  | mk oe t =>
    cases oe with
    | none =>
      rw [show ParseTopLevelExprF fuel toks = (none, t) by simp only [ParseTopLevelExprF, he]] at h
      exact absurd h Bool.false_ne_true
    | some e =>
      have h1 := ParseExpressionF_lt_of_isSome fuel toks (by rw [he]; rfl)
      rw [he] at h1
      simp only [ParseTopLevelExprF, he]
      exact h1

/-- C5: after every top-level dispatch (handle-definition, handle-extern,
handle-top-level-expression) the current-token stream has strictly
advanced past the consumed or abandoned unit, whether the parse
succeeded or failed (on failure the handler itself eats one token), so
the driver never re-examines the same token forever. -/
theorem claim_C5_handlers_always_advance :
    ∀ (fuel : Nat) (toks : List Tok), toks ≠ [] →
      (HandleDefinitionF fuel toks).2.length < toks.length ∧
      (HandleExternF toks).2.length < toks.length ∧
      (HandleTopLevelExpressionF fuel toks).2.length < toks.length := by
  intro fuel toks hne
  refine ⟨?_, ?_, ?_⟩
  · cases hd : ParseDefinitionF fuel toks with
    | mk od t =>
      have h1 : t.length ≤ (advance toks).length := by
        have h2 := ParseDefinitionF_le fuel toks
        rw [hd] at h2
        exact h2
      have h2 : t.length < toks.length := lt_of_le_of_lt h1 (advance_length_lt hne)
      cases od with
      | some f =>
        simp only [HandleDefinitionF, hd]
        exact h2
      | none =>
        simp only [HandleDefinitionF, hd]
        exact lt_of_le_of_lt (advance_length_le t) h2
  · cases hd : ParsePrototype (advance toks) with
    | mk op t =>
      have h1 : t.length ≤ (advance toks).length := by
        have h2 := ParsePrototype_le (advance toks)
        rw [hd] at h2
        exact h2
      have h2 : t.length < toks.length := lt_of_le_of_lt h1 (advance_length_lt hne)
      cases op with
      | some p =>
        simp only [HandleExternF, ParseExtern, hd]
        exact h2
      | none =>
        simp only [HandleExternF, ParseExtern, hd]
        exact lt_of_le_of_lt (advance_length_le t) h2
  · cases hd : ParseTopLevelExprF fuel toks with
    | mk od t =>
      cases od with
      | some f =>
        have h1 := ParseTopLevelExprF_lt_of_isSome fuel toks (by rw [hd]; rfl)
        rw [hd] at h1
        simp only [HandleTopLevelExpressionF, hd]
        exact h1
      | none =>
        have h1 : t.length ≤ toks.length := by
          have h2 := ParseTopLevelExprF_le fuel toks
          rw [hd] at h2
          exact h2
        simp only [HandleTopLevelExpressionF, hd]
        exact advance_length_lt_of_le hne h1

/-- C5 witness: on the unparsable single token `'!'` all three handlers
leave a strictly shorter stream. -/
theorem claim_C5_witness :
    (HandleDefinitionF 5 [Tok.charToken '!']).2.length < 1 ∧
    (HandleExternF [Tok.charToken '!']).2.length < 1 ∧
    (HandleTopLevelExpressionF 5 [Tok.charToken '!']).2.length < 1 :=
  claim_C5_handlers_always_advance 5 [Tok.charToken '!'] (by simp)

end Sushi
